import Mathlib

/-!
# ComposerPool (packages/composer-runtime-hlfv1/composerpool.go)

A shallow embedding of the bounded, lazily populated pool of `Composer`
handles, in two layers that share the same primitives:

* the operations `NewComposerPool`, `Get` and `Put` executed one at a time,
  as functions that return `none` exactly when the Go call would not return
  (a blocked lock, a blocked channel operation, a `make` that panics on a
  negative or too large size);
* the same operations cut at their blocking points (`Call`, `stepCall`) and
  interleaved by an arbitrary schedule (`Action`, `exec`, `run`).
  `Get_eq_runCall` and `Put_eq_runCall` show that the two layers agree.

Modelling choices:

* The `logger.Debug` calls have no effect on the pool and are left out. Two of
  them read `Index` through the handle; handles are non-nil pointers here.
* `PoolCount` and `PoolMax` are Go `int`s; the only arithmetic is `PoolCount++`
  under the guard `PoolCount < PoolMax`, which cannot overflow, so they are
  embedded as `Int`.
* Lines 55-58 of `Get` (allocation, `Index`, `PoolCount++`) are one step: they
  run under the exclusive lock, and `exclusive_access` shows that no other call
  holds the lock in either mode meanwhile.
* The lock and the channel are scheduled more liberally than the Go runtime
  does (a pending `Lock` does not hold back new `RLock`s, any waiting receiver
  may take the next element), so every Go execution is a schedule here.
-/

namespace ComposerRuntime

/-! ## Data model -/

/-- Handle: a non-nil `*Composer`. `ref` is the identity of the object pointed
to (two handles are the same instance iff their `ref`s agree) and `Index` is the
field that `Get` writes once, right after creation. -/
structure Composer where
  ref : Nat
  Index : Int
deriving DecidableEq, Repr

/-- Buffered channel `chan *Composer`: the capacity given to `make` and the
buffered elements, oldest first. -/
structure Chan where
  cap : Nat
  buf : List Composer
deriving DecidableEq, Repr

/-- Reader/writer lock `sync.RWMutex`: number of read locks held and whether the
exclusive lock is held. -/
structure RWMutex where
  readers : Nat
  writer : Bool
deriving DecidableEq, Repr

/-- The Go struct `ComposerPool`. -/
structure ComposerPool where
  Pool : Chan
  PoolMutex : RWMutex
  PoolCount : Int
  PoolMax : Int
deriving DecidableEq, Repr

/-- Program state: the pool together with the log of every `Composer` object
that `NewComposer()` has allocated so far, in allocation order. -/
structure State where
  created : List Composer
  cp : ComposerPool
deriving DecidableEq, Repr

/-! ## Primitives: channel, lock, allocation -/

/-- The largest size `make(chan *Composer, n)` accepts. The Go runtime refuses a
buffer of more than `maxAlloc - hchanSize` bytes; with elements of 8 bytes,
`maxAlloc = 2^48` and `hchanSize = 96` (64-bit Linux) that is `2^45 - 12`
elements. The bound differs between platforms and runtime versions; no theorem
below depends on its value, only the evaluated scenarios need capacities 1 to 3
to lie under it. -/
def maxChanSize : Nat := (2 ^ 48 - 96) / 8

/-- Go `make(chan *Composer, n)`: panics ("makechan: size out of range") for a
negative size and for a size above `maxChanSize`. -/
def makeChan (n : Int) : Option Chan :=
  if n < 0 ∨ (maxChanSize : Int) < n then none else some { cap := n.toNat, buf := [] }

/-- Channel send `c <- h` with no receiver waiting: appends to the buffer, and
blocks (`none`) when the buffer already holds `cap` elements. -/
def Chan.send (c : Chan) (h : Composer) : Option Chan :=
  if c.buf.length < c.cap then some { c with buf := c.buf ++ [h] } else none

/-- Channel receive `<-c` with no sender waiting: takes the oldest buffered
element, and blocks (`none`) on an empty buffer. -/
def Chan.recv (c : Chan) : Option (Composer × Chan) :=
  match c.buf with
  | [] => none
  | h :: rest => some (h, { c with buf := rest })

/-- A fresh `&sync.RWMutex{}`. -/
def RWMutex.new : RWMutex := { readers := 0, writer := false }

/-- Go `RLock`: blocks while the exclusive lock is held. -/
def RWMutex.RLock (m : RWMutex) : Option RWMutex :=
  if m.writer then none else some { m with readers := m.readers + 1 }

/-- Go `RUnlock`. -/
def RWMutex.RUnlock (m : RWMutex) : RWMutex :=
  { m with readers := m.readers - 1 }

/-- Go `Lock`: blocks while the exclusive lock or any read lock is held. -/
def RWMutex.Lock (m : RWMutex) : Option RWMutex :=
  if m.writer = false ∧ m.readers = 0 then some { m with writer := true } else none

/-- Go `Unlock`. -/
def RWMutex.Unlock (m : RWMutex) : RWMutex :=
  { m with writer := false }

/-- Modelled from the spec: `NewComposer()` is not part of this source file; the
spec describes it as a handle factory "that produces a fresh, ready-to-use
handle". The fresh object gets the next unused identity and the zero `Index`. -/
def NewComposer (created : List Composer) : Composer :=
  { ref := created.length, Index := 0 }

/-! ## The operations, executed one at a time -/

/-- Go `NewComposerPool(max)`. -/
def NewComposerPool (max : Int) : Option State :=
  match makeChan max with
  | none => none
  | some ch =>
    some { created := [],
           cp := { Pool := ch, PoolCount := 0, PoolMax := max, PoolMutex := RWMutex.new } }

/-- Lines 55-58 of `Get`: `result := NewComposer(); result.Index = cp.PoolCount;
cp.PoolCount++`. -/
def createComposer (s : State) : Composer × State :=
  let result := { NewComposer s.created with Index := s.cp.PoolCount }
  (result, { created := s.created ++ [result],
             cp := { s.cp with PoolCount := s.cp.PoolCount + 1 } })

/-- Replaces the lock state of the pool. -/
def State.withMutex (s : State) (m : RWMutex) : State :=
  { s with cp := { s.cp with PoolMutex := m } }

/-- Replaces the channel state of the pool. -/
def State.withPool (s : State) (c : Chan) : State :=
  { s with cp := { s.cp with Pool := c } }

/-- Go `ComposerPool.Get`, run with no other call in flight: read lock and
check (lines 49-50), exclusive lock with deferred unlock and re-check (lines
51-54), creation (lines 55-59), or else the dequeue (line 68). `none` means the
call does not return. -/
def Get (s : State) : Option (Composer × State) :=
  match s.cp.PoolMutex.RLock with
  | none => none
  | some m1 =>
    let s1 := s.withMutex m1
    if s1.cp.PoolCount < s1.cp.PoolMax then
      let s2 := s1.withMutex s1.cp.PoolMutex.RUnlock
      match s2.cp.PoolMutex.Lock with
      | none => none
      | some m3 =>
        let s3 := s2.withMutex m3
        -- the deferred Unlock runs on both return paths below
        if s3.cp.PoolCount < s3.cp.PoolMax then
          let (result, s4) := createComposer s3
          some (result, s4.withMutex s4.cp.PoolMutex.Unlock)
        else
          match s3.cp.Pool.recv with
          | none => none
          | some (result, ch) =>
            let s4 := s3.withPool ch
            some (result, s4.withMutex s4.cp.PoolMutex.Unlock)
    else
      let s2 := s1.withMutex s1.cp.PoolMutex.RUnlock
      match s2.cp.Pool.recv with
      | none => none
      | some (result, ch) => some (result, s2.withPool ch)

/-- Go `ComposerPool.Put`, run with no other call in flight: the send of line
80, then `return true`. `none` means the call does not return. -/
def Put (composer : Composer) (s : State) : Option (Bool × State) :=
  match s.cp.Pool.send composer with
  | none => none
  | some ch => some (true, s.withPool ch)

/-- No call is in flight: nobody holds the lock in either mode. -/
def Idle (s : State) : Prop :=
  s.cp.PoolMutex = RWMutex.new

instance (s : State) : Decidable (Idle s) := by
  unfold Idle; infer_instance

/-- Runs `Put` on each handle in turn. -/
def putAll : List Composer → State → Option State
  | [], s => some s
  | h :: hs, s =>
    match Put h s with
    | none => none
    | some (_, s1) => putAll hs s1

/-- Runs `Get` `n` times in turn and collects the handles returned. -/
def getN : Nat → State → Option (List Composer × State)
  | 0, s => some ([], s)
  | n + 1, s =>
    match Get s with
    | none => none
    | some (r, s1) =>
      match getN n s1 with
      | none => none
      | some (rs, s2) => some (r :: rs, s2)

/-! ## The operations cut at their blocking points, for interleaving -/

/-- Where a call of `Get` or `Put` currently stands. -/
inductive Call where
  /-- `Get` at line 49, about to `RLock`. -/
  | getEnter
  /-- `Get` holding the read lock, about to run the check of line 50. -/
  | getRLocked
  /-- `Get` after `RUnlock` (line 51), about to `Lock` (line 52). -/
  | getWantLock
  /-- `Get` holding the exclusive lock, about to run the re-check of line 54. -/
  | getLocked
  /-- `Get` holding the exclusive lock after a successful re-check, about to run
  lines 55-59. -/
  | getCreate
  /-- `Get` at the dequeue of line 68; the flag says whether this call holds the
  exclusive lock (its `Unlock` is deferred to the return). -/
  | getRecv (locked : Bool)
  /-- `Get` with its result set, about to run the deferred `Unlock`. -/
  | getReturn (result : Composer)
  /-- `Get` has returned `result` to its caller. -/
  | getDone (result : Composer)
  /-- `Put` at the send of line 80. -/
  | putSend (composer : Composer)
  /-- `Put` has returned `true`. -/
  | putDone
deriving DecidableEq, Repr

/-- One step of a single call on the shared state; `none` when the call is
blocked or has already returned. -/
def stepCall : Call → State → Option (Call × State)
  | .getEnter, s =>
    match s.cp.PoolMutex.RLock with
    | none => none
    | some m => some (.getRLocked, s.withMutex m)
  | .getRLocked, s =>
    if s.cp.PoolCount < s.cp.PoolMax then
      some (.getWantLock, s.withMutex s.cp.PoolMutex.RUnlock)
    else
      some (.getRecv false, s.withMutex s.cp.PoolMutex.RUnlock)
  | .getWantLock, s =>
    match s.cp.PoolMutex.Lock with
    | none => none
    | some m => some (.getLocked, s.withMutex m)
  | .getLocked, s =>
    if s.cp.PoolCount < s.cp.PoolMax then some (.getCreate, s)
    else some (.getRecv true, s)
  | .getCreate, s =>
    let (result, s1) := createComposer s
    some (.getReturn result, s1)
  | .getRecv locked, s =>
    match s.cp.Pool.recv with
    | none => none
    | some (result, ch) =>
      some (if locked then .getReturn result else .getDone result, s.withPool ch)
  | .getReturn result, s =>
    some (.getDone result, s.withMutex s.cp.PoolMutex.Unlock)
  | .getDone _, _ => none
  | .putSend composer, s =>
    match s.cp.Pool.send composer with
    | none => none
    | some ch => some (.putDone, s.withPool ch)
  | .putDone, _ => none

/-- Runs a single call alone until it has returned, is blocked, or the fuel is
spent. -/
def runCall : Nat → Call → State → Call × State
  | 0, c, s => (c, s)
  | n + 1, c, s =>
    match stepCall c s with
    | none => (c, s)
    | some (c1, s1) => runCall n c1 s1

/-- The shared state and all calls made so far, in flight or returned. -/
structure Sys where
  st : State
  calls : List Call
deriving DecidableEq, Repr

/-- What the scheduler or a caller can do next. -/
inductive Action where
  /-- Some caller invokes `Get`. -/
  | callGet
  /-- Some caller invokes `Put` on an arbitrary handle (no contract assumed). -/
  | callPut (composer : Composer)
  /-- The caller whose `Get` is call `i` and has returned invokes `Put` on the
  handle it was given: the contract of `Put`. -/
  | release (i : Nat)
  /-- Call `i` takes its next step. -/
  | step (i : Nat)
  /-- The send of call `i` is handed directly to the receive of call `j` waiting
  on an empty buffer (the only way through an unbuffered channel). -/
  | handoff (i j : Nat)
deriving DecidableEq, Repr

/-- Executes one action; `none` when the action is not enabled. -/
def exec : Action → Sys → Option Sys
  | .callGet, y => some { y with calls := y.calls ++ [.getEnter] }
  | .callPut composer, y => some { y with calls := y.calls ++ [.putSend composer] }
  | .release i, y =>
    match y.calls[i]? with
    | some (.getDone result) => some { y with calls := y.calls.set i (.putSend result) }
    | _ => none
  | .step i, y =>
    match y.calls[i]? with
    | none => none
    | some c =>
      match stepCall c y.st with
      | none => none
      | some (c1, s1) => some { st := s1, calls := y.calls.set i c1 }
  | .handoff i j, y =>
    match y.calls[i]?, y.calls[j]? with
    | some (.putSend composer), some (.getRecv locked) =>
      if y.st.cp.Pool.buf = [] then
        let receiver := if locked then Call.getReturn composer else Call.getDone composer
        some { y with calls := (y.calls.set i Call.putDone).set j receiver }
      else none
    | _, _ => none

/-- Executes a schedule from left to right; `none` when some action of it is not
enabled. -/
def run : List Action → Sys → Option Sys
  | [], y => some y
  | a :: as, y =>
    match exec a y with
    | none => none
    | some y1 => run as y1

/-- The system right after `NewComposerPool(max)`, with no call made yet. -/
def Sys.init (max : Int) : Option Sys :=
  match NewComposerPool max with
  | none => none
  | some s => some { st := s, calls := [] }

/-- The state reached by a schedule from a pool built by `NewComposerPool(max)`;
`none` when the constructor panics or the schedule is not executable. -/
def reach (max : Int) (sched : List Action) : Option Sys :=
  match Sys.init max with
  | none => none
  | some y0 => run sched y0

/-- Capacity 1, two overlapping `Get`s: both pass the optimistic check, call 0
creates the only handle and returns, call 1 then takes the exclusive lock and
fails the re-check. -/
def raceSchedule : List Action :=
  [.callGet, .callGet, .step 0, .step 1, .step 0, .step 1, .step 0, .step 0, .step 0,
    .step 0, .step 1, .step 1]

/-- The state `raceSchedule` ends in: call 1 waits on the empty queue with the
exclusive lock held. -/
def raceState : Sys :=
  { st := { created := [{ ref := 0, Index := 0 }]
            cp := { Pool := { cap := 1, buf := [] }
                    PoolMutex := { readers := 0, writer := true }
                    PoolCount := 1, PoolMax := 1 } }
    calls := [.getDone { ref := 0, Index := 0 }, .getRecv true] }

/-- After `raceSchedule` the caller of call 0 releases its handle. -/
def raceReleaseState : Sys :=
  { raceState with calls := [.putSend { ref := 0, Index := 0 }, .getRecv true] }

/-- Capacity 2, two `Get`s one after the other, the first handle released and
queued, the release of the second under way. -/
def circulateSchedule : List Action :=
  [.callGet, .step 0, .step 0, .step 0, .step 0, .step 0, .step 0,
    .callGet, .step 1, .step 1, .step 1, .step 1, .step 1, .step 1,
    .release 0, .step 0, .release 1]

/-- The state `circulateSchedule` ends in. -/
def circulateState : Sys :=
  { st := { created := [{ ref := 0, Index := 0 }, { ref := 1, Index := 1 }]
            cp := { Pool := { cap := 2, buf := [{ ref := 0, Index := 0 }] }
                    PoolMutex := { readers := 0, writer := false }
                    PoolCount := 2, PoolMax := 2 } }
    calls := [.putDone, .putSend { ref := 1, Index := 1 }] }

/-- An action that respects the contract of `Put`: every `Put` is the `release`
of a handle that a returned `Get` handed out. -/
def Action.contractual : Action → Bool
  | .callPut _ => false
  | _ => true

/-- The handle a call currently holds outside the queue, if any. -/
def Call.held : Call → List Composer
  | .getReturn result => [result]
  | .getDone result => [result]
  | .putSend composer => [composer]
  | _ => []

/-- The handles checked out: those held by some call, in call order. -/
def heldBy : List Call → List Composer
  | [] => []
  | c :: cs => c.held ++ heldBy cs

/-- Whether a call currently holds the exclusive lock. -/
def Call.holdsLock : Call → Bool
  | .getLocked => true
  | .getCreate => true
  | .getRecv locked => locked
  | .getReturn _ => true
  | _ => false

/-- Whether a call currently holds the read lock. -/
def Call.holdsRLock : Call → Bool
  | .getRLocked => true
  | _ => false

/-- What the control point of a call says about the counter: a call past the
optimistic check has seen room below a positive ceiling, a call about to create
still has that room, and a call waiting on the queue with the exclusive lock has
seen the ceiling reached. -/
def Call.ok (s : State) : Call → Prop
  | .getWantLock => 0 < s.cp.PoolMax
  | .getLocked => 0 < s.cp.PoolMax
  | .getCreate => s.cp.PoolCount < s.cp.PoolMax
  | .getRecv true => s.cp.PoolCount = s.cp.PoolMax ∧ 0 < s.cp.PoolMax
  | _ => True

/-- The invariant of the interleaved system on a pool of capacity `max`, kept by
every action whether or not callers respect the contract of `Put`. -/
structure Inv (max : Int) (y : Sys) : Prop where
  hmax : y.st.cp.PoolMax = max
  hcap : (y.st.cp.Pool.cap : Int) = y.st.cp.PoolMax
  hbuf : y.st.cp.Pool.buf.length ≤ y.st.cp.Pool.cap
  hlo : 0 ≤ y.st.cp.PoolCount
  hhi : y.st.cp.PoolCount ≤ y.st.cp.PoolMax
  hlen : (y.st.created.length : Int) = y.st.cp.PoolCount
  hrefs : ∀ (i : Nat) (c : Composer), y.st.created[i]? = some c → c.ref = i ∧ c.Index = i
  hlock : y.calls.countP Call.holdsLock = if y.st.cp.PoolMutex.writer then 1 else 0
  hrlock : y.calls.countP Call.holdsRLock = y.st.cp.PoolMutex.readers
  hrw : y.st.cp.PoolMutex.writer = true → y.st.cp.PoolMutex.readers = 0
  hok : ∀ c ∈ y.calls, c.ok y.st

/-- Conservation: the created handles are exactly the handles held by calls
together with the handles in the queue, multiplicities included. -/
def Conserved (y : Sys) : Prop :=
  List.Perm y.st.created (heldBy y.calls ++ y.st.cp.Pool.buf)

/-! ## Basic facts about the operations run one at a time -/

/-- What `NewComposerPool(max)` builds when it returns: `max` is not negative
and the pool is empty, unlocked, with a channel of capacity `max`. -/
theorem NewComposerPool_some (max : Int) (s0 : State) (h : NewComposerPool max = some s0) :
    0 ≤ max ∧ s0 = { created := []
                     cp := { Pool := { cap := max.toNat, buf := [] }
                             PoolCount := 0, PoolMax := max, PoolMutex := RWMutex.new } } := by
  by_cases hbad : max < 0 ∨ (maxChanSize : Int) < max
  · simp [NewComposerPool, makeChan, hbad] at h
  · simp only [NewComposerPool, makeChan, hbad, if_false, Option.some.injEq] at h
    exact ⟨by omega, h.symm⟩

/-- `NewComposerPool(max)` panics exactly for a negative `max` and for a `max`
above the largest channel size. -/
theorem NewComposerPool_none_iff (max : Int) :
    NewComposerPool max = none ↔ (max < 0 ∨ (maxChanSize : Int) < max) := by
  by_cases hbad : max < 0 ∨ (maxChanSize : Int) < max
  · simp [NewComposerPool, makeChan, hbad]
  · simp [NewComposerPool, makeChan, hbad]

theorem Idle.mutex_eq {s : State} (h : Idle s) :
    s.cp.PoolMutex = { readers := 0, writer := false } := h

/-- Below the ceiling an idle `Get` takes the creation path. -/
theorem Get_of_lt (s : State) (hidle : Idle s) (hlt : s.cp.PoolCount < s.cp.PoolMax) :
    Get s = some (createComposer s) := by
  have hm := hidle.mutex_eq
  obtain ⟨created, ⟨pool, mutex, count, max⟩⟩ := s
  simp only at hm hlt
  subst hm
  simp [Get, RWMutex.RLock, RWMutex.RUnlock, RWMutex.Lock, RWMutex.Unlock,
    State.withMutex, createComposer, hlt]

/-- At or above the ceiling an idle `Get` is the dequeue. -/
theorem Get_of_not_lt (s : State) (hidle : Idle s) (hge : ¬ s.cp.PoolCount < s.cp.PoolMax) :
    Get s = match s.cp.Pool.recv with
      | none => none
      | some (result, ch) => some (result, s.withPool ch) := by
  have hm := hidle.mutex_eq
  obtain ⟨created, ⟨pool, mutex, count, max⟩⟩ := s
  simp only at hm hge
  subst hm
  simp [Get, RWMutex.RLock, RWMutex.RUnlock, State.withMutex, hge, State.withPool]

theorem createComposer_idle (s : State) (hidle : Idle s) : Idle (createComposer s).2 := by
  simpa [Idle, createComposer] using hidle

theorem withPool_idle (s : State) (ch : Chan) (hidle : Idle s) : Idle (s.withPool ch) := by
  simpa [Idle, State.withPool] using hidle

/-- An idle pool is idle again after a `Get` that returns. -/
theorem Get_idle (s : State) (hidle : Idle s) (r : Composer) (s1 : State)
    (h : Get s = some (r, s1)) : Idle s1 := by
  by_cases hlt : s.cp.PoolCount < s.cp.PoolMax
  · rw [Get_of_lt s hidle hlt] at h
    have h2 : (createComposer s).2 = s1 := by
      rw [Option.some.inj h]
    rw [← h2]
    exact createComposer_idle s hidle
  · rw [Get_of_not_lt s hidle hlt] at h
    cases hr : s.cp.Pool.recv with
    | none => simp [hr] at h
    | some p =>
      obtain ⟨x, ch⟩ := p
      simp [hr] at h
      rw [← h.2]
      exact withPool_idle s ch hidle

/-- Below the ceiling, `n` idle `Get`s in a row create `n` handles numbered
consecutively from the current count. -/
theorem getN_creates (n : Nat) : ∀ s : State, Idle s → s.cp.PoolCount + n ≤ s.cp.PoolMax →
    ∃ sn, getN n s = some ((List.range n).map (fun i =>
        ({ ref := s.created.length + i, Index := s.cp.PoolCount + i } : Composer)), sn) ∧
      Idle sn ∧ sn.cp.PoolCount = s.cp.PoolCount + n ∧ sn.cp.PoolMax = s.cp.PoolMax ∧
      sn.cp.Pool = s.cp.Pool ∧ sn.created.length = s.created.length + n := by
  induction n with
  | zero =>
    intro s hidle _
    exact ⟨s, by simp [getN], hidle, by simp, rfl, rfl, rfl⟩
  | succ n ih =>
    intro s hidle hle
    have hlt : s.cp.PoolCount < s.cp.PoolMax := by push_cast at hle; omega
    have hidle1 := createComposer_idle s hidle
    have hle1 : (createComposer s).2.cp.PoolCount + n ≤ (createComposer s).2.cp.PoolMax := by
      simp only [createComposer]; push_cast at hle; omega
    obtain ⟨sn, hget, hi, hc, hm, hp, hl⟩ := ih (createComposer s).2 hidle1 hle1
    refine ⟨sn, ?_, hi, ?_, ?_, ?_, ?_⟩
    · simp only [getN, Get_of_lt s hidle hlt, hget]
      simp only [createComposer, NewComposer, List.length_append, List.length_singleton,
        List.range_succ_eq_map, List.map_cons, List.map_map]
      congr 2
      simp only [CharP.cast_eq_zero, add_zero, List.cons.injEq, List.map_inj_left,
        Function.comp_apply, Composer.mk.injEq, Nat.cast_add, Nat.cast_one, true_and]
      intro i _
      constructor
      · omega
      · simp only [Nat.succ_eq_add_one]; push_cast; ring
    · rw [hc]; simp only [createComposer]; push_cast; ring
    · rw [hm]; simp only [createComposer]
    · rw [hp]; simp only [createComposer]
    · rw [hl]; simp only [createComposer, List.length_append, List.length_singleton]; omega

/-- With the queue empty and room for them, releasing `hs` and then acquiring
as many times returns `hs` in order once the ceiling has been reached. -/
theorem putAll_append (hs : List Composer) : ∀ s : State,
    s.cp.Pool.buf.length + hs.length ≤ s.cp.Pool.cap →
    putAll hs s = some (s.withPool { s.cp.Pool with buf := s.cp.Pool.buf ++ hs }) := by
  induction hs with
  | nil => intro s _; simp [putAll, State.withPool]
  | cons h hs ih =>
    intro s hle
    simp only [List.length_cons] at hle
    have hlt : s.cp.Pool.buf.length < s.cp.Pool.cap := by omega
    simp only [putAll, Put, Chan.send, hlt, if_true]
    rw [ih]
    · simp [State.withPool]
    · simp only [State.withPool, List.length_append, List.length_singleton]; omega

theorem getN_drains (hs : List Composer) : ∀ (s : State) (rest : List Composer), Idle s →
    ¬ s.cp.PoolCount < s.cp.PoolMax → s.cp.Pool.buf = hs ++ rest →
    getN hs.length s = some (hs, s.withPool { s.cp.Pool with buf := rest }) := by
  induction hs with
  | nil =>
    intro s rest _ _ hb
    simp only [List.nil_append] at hb
    simp [getN, State.withPool, ← hb]
  | cons h hs ih =>
    intro s rest hidle hge hb
    have hrecv : s.cp.Pool.recv = some (h, { s.cp.Pool with buf := hs ++ rest }) := by
      simp [Chan.recv, hb]
    simp only [List.length_cons, getN, Get_of_not_lt s hidle hge, hrecv]
    rw [ih (s.withPool { s.cp.Pool with buf := hs ++ rest }) rest
      (withPool_idle s _ hidle) (by simpa [State.withPool] using hge) (by simp [State.withPool])]
    simp [State.withPool]

/-! ## The operations run one at a time: the claims -/

/-- C2 (Scenario B on the code): on `NewComposerPool(3)`, after `Get` and `Put`
of the handle obtained, the second `Get` is still below the ceiling, so it
creates a second handle (index 1), `PoolCount` becomes 2 and the released handle
stays in the queue; the released handle is not the one returned. -/
theorem scenarioB_second_Get_creates :
    ∃ s0 r1 s1 s2 r2 s3, NewComposerPool 3 = some s0 ∧ Get s0 = some (r1, s1) ∧
      Put r1 s1 = some (true, s2) ∧ Get s2 = some (r2, s3) ∧
      r1 = { ref := 0, Index := 0 } ∧ r2 = { ref := 1, Index := 1 } ∧ r2.ref ≠ r1.ref ∧
      s2.cp.PoolCount = 1 ∧ s3.cp.PoolCount = 2 ∧ s3.created.length = 2 ∧
      s3.cp.Pool.buf = [r1] := by
  refine ⟨_, _, _, _, _, _, rfl, rfl, rfl, rfl, ?_⟩
  decide

/-- C3 (creation step): in every idle pool state with `PoolCount < PoolMax`,
`Get` returns a handle it has just allocated, whose `Index` is the old
`PoolCount`; `PoolCount` grows by exactly 1 and the queue and `PoolMax` are
unchanged. On a fresh pool of capacity 2 two `Get`s in a row return two distinct
handles with indices 0 and 1, and on every fresh pool that `NewComposerPool(max)`
returns the first `k` `Get`s (`k ≤ max`) return the handles numbered
`0, ..., k-1` in that order. -/
theorem Get_creation_step :
    (∀ s : State, Idle s → s.cp.PoolCount < s.cp.PoolMax →
      ∃ r s1, Get s = some (r, s1) ∧
        r.ref = s.created.length ∧ s1.created = s.created ++ [r] ∧
        r.Index = s.cp.PoolCount ∧ s1.cp.PoolCount = s.cp.PoolCount + 1 ∧
        s1.cp.Pool = s.cp.Pool ∧ s1.cp.PoolMax = s.cp.PoolMax ∧ Idle s1) ∧
    (∃ s0 r1 s1 r2 s2, NewComposerPool 2 = some s0 ∧ Get s0 = some (r1, s1) ∧
        Get s1 = some (r2, s2) ∧ r1.ref ≠ r2.ref ∧ r1.Index = 0 ∧ r2.Index = 1) ∧
    (∀ (max : Int) (k : Nat) (s0 : State), NewComposerPool max = some s0 → (k : Int) ≤ max →
      ∃ sk, getN k s0 = some ((List.range k).map
          (fun i => ({ ref := i, Index := (i : Int) } : Composer)), sk)) := by
  refine ⟨?_, ?_, ?_⟩
  · intro s hidle hlt
    refine ⟨(createComposer s).1, (createComposer s).2, Get_of_lt s hidle hlt,
      rfl, rfl, rfl, rfl, rfl, rfl, createComposer_idle s hidle⟩
  · refine ⟨_, _, _, _, _, rfl, rfl, rfl, ?_⟩
    decide
  · intro max k s0 hnew hk
    obtain ⟨_, rfl⟩ := NewComposerPool_some max s0 hnew
    obtain ⟨sk, hget, _⟩ := getN_creates k
      { created := []
        cp := { Pool := { cap := max.toNat, buf := [] }
                PoolCount := 0, PoolMax := max, PoolMutex := RWMutex.new } }
      rfl (by simpa using hk)
    exact ⟨sk, by simpa using hget⟩

/-- Witness of C3: the first `Get` on a fresh pool of capacity 2, and the two
`Get`s in a row on the pool that `NewComposerPool(2)` returns. -/
theorem Get_creation_step_witness :
    (∃ r s1, Get { created := []
                   cp := { Pool := { cap := 2, buf := [] }
                           PoolMutex := RWMutex.new, PoolCount := 0, PoolMax := 2 } }
        = some (r, s1) ∧
      r.ref = 0 ∧ r.Index = 0 ∧ s1.cp.PoolCount = 1) ∧
    NewComposerPool 2 = some { created := []
                               cp := { Pool := { cap := 2, buf := [] }
                                       PoolMutex := RWMutex.new, PoolCount := 0, PoolMax := 2 } } ∧
    (∃ sk, getN 2 { created := []
                    cp := { Pool := { cap := 2, buf := [] }
                            PoolMutex := RWMutex.new, PoolCount := 0, PoolMax := 2 } }
        = some ((List.range 2).map (fun i => ({ ref := i, Index := (i : Int) } : Composer)),
            sk)) := by
  refine ⟨?_, by decide, ?_⟩
  · obtain ⟨r, s1, h, hr, _, hi, hc, _⟩ := Get_creation_step.1
      { created := []
        cp := { Pool := { cap := 2, buf := [] }
                PoolMutex := RWMutex.new, PoolCount := 0, PoolMax := 2 } }
      (by decide) (by decide)
    exact ⟨r, s1, h, hr, hi, hc⟩
  · exact Get_creation_step.2.2 2 2 _ (by decide) (by decide)

/-- C5 (blocking): in every idle pool state within the ceiling
(`PoolCount ≤ PoolMax`), `Get` does not return iff `PoolCount = PoolMax` and the
queue is empty, and in every other such state it returns a handle. With
capacity 1 the second `Get` does not return, and it returns once a `Put` has
run; with capacity 2 the third `Get` does not return until a handle is
released. -/
theorem Get_blocks_iff :
    (∀ s : State, Idle s → s.cp.PoolCount ≤ s.cp.PoolMax →
      ((Get s = none ↔ (s.cp.PoolCount = s.cp.PoolMax ∧ s.cp.Pool.buf = [])) ∧
       (¬ (s.cp.PoolCount = s.cp.PoolMax ∧ s.cp.Pool.buf = []) →
          ∃ r s1, Get s = some (r, s1)))) ∧
    (∃ s0 r1 s1, NewComposerPool 1 = some s0 ∧ Get s0 = some (r1, s1) ∧ Get s1 = none ∧
        ∀ h, ∃ s2, Put h s1 = some (true, s2) ∧ Get s2 = some (h, s1)) ∧
    (∃ s0 r1 s1 r2 s2, NewComposerPool 2 = some s0 ∧ Get s0 = some (r1, s1) ∧
        Get s1 = some (r2, s2) ∧ Get s2 = none ∧
        ∀ h, ∃ s3, Put h s2 = some (true, s3) ∧ Get s3 = some (h, s2)) := by
  have key : ∀ s : State, Idle s → s.cp.PoolCount ≤ s.cp.PoolMax →
      (Get s = none ↔ (s.cp.PoolCount = s.cp.PoolMax ∧ s.cp.Pool.buf = [])) := by
    intro s hidle hle
    by_cases hlt : s.cp.PoolCount < s.cp.PoolMax
    · rw [Get_of_lt s hidle hlt]
      constructor
      · intro h; simp at h
      · intro h; omega
    · rw [Get_of_not_lt s hidle hlt]
      have heq : s.cp.PoolCount = s.cp.PoolMax := by omega
      cases hb : s.cp.Pool.buf with
      | nil => simp [Chan.recv, hb, heq]
      | cons x rest => simp [Chan.recv, hb]
  refine ⟨?_, ?_, ?_⟩
  · intro s hidle hle
    refine ⟨key s hidle hle, ?_⟩
    intro hne
    have hsome : Get s ≠ none := fun h => hne ((key s hidle hle).1 h)
    cases hg : Get s with
    | none => exact absurd hg hsome
    | some p => exact ⟨p.1, p.2, rfl⟩
  · refine ⟨_, _, _, rfl, rfl, by decide, ?_⟩
    intro h
    exact ⟨_, rfl, by rfl⟩
  · refine ⟨_, _, _, _, _, rfl, rfl, rfl, by decide, ?_⟩
    intro h
    exact ⟨_, rfl, by rfl⟩

/-- Witness of C5: the fresh pool of capacity 1 after its first `Get`. -/
theorem Get_blocks_iff_witness :
    Get { created := [{ ref := 0, Index := 0 }]
          cp := { Pool := { cap := 1, buf := [] }
                  PoolMutex := RWMutex.new, PoolCount := 1, PoolMax := 1 } } = none :=
  ((Get_blocks_iff.1
      { created := [{ ref := 0, Index := 0 }]
        cp := { Pool := { cap := 1, buf := [] }
                PoolMutex := RWMutex.new, PoolCount := 1, PoolMax := 1 } }
      (by decide) (by decide)).1).2 ⟨by decide, by decide⟩

/-- C6 (FIFO hand-off): in every idle pool state with `PoolCount = PoolMax` and
a non-empty queue, `Get` returns the head of the queue and changes nothing but
the queue, which loses exactly its head. Hence, at the ceiling and starting from
an empty queue, the handles released by `Put`s `hs` (as many as the queue can
take) are returned by the following `Get`s in the same order, the pool ending in
the state it started from. With capacity 1, the handle released is the one the
next `Get` returns. -/
theorem Get_fifo :
    (∀ (s : State) (h : Composer) (rest : List Composer), Idle s →
      s.cp.PoolCount = s.cp.PoolMax → s.cp.Pool.buf = h :: rest →
      Get s = some (h, s.withPool { s.cp.Pool with buf := rest })) ∧
    (∀ (s : State) (hs : List Composer), Idle s → s.cp.PoolCount = s.cp.PoolMax →
      s.cp.Pool.buf = [] → hs.length ≤ s.cp.Pool.cap →
      ∃ s1, putAll hs s = some s1 ∧ s1.cp.Pool.buf = hs ∧
        getN hs.length s1 = some (hs, s)) ∧
    (∃ s0 r s1 s2, NewComposerPool 1 = some s0 ∧ Get s0 = some (r, s1) ∧ Get s1 = none ∧
        Put r s1 = some (true, s2) ∧ Get s2 = some (r, s1)) := by
  refine ⟨?_, ?_, ?_⟩
  · intro s h rest hidle heq hb
    have hge : ¬ s.cp.PoolCount < s.cp.PoolMax := by omega
    rw [Get_of_not_lt s hidle hge]
    simp [Chan.recv, hb]
  · intro s hs hidle heq hb hle
    have hge : ¬ s.cp.PoolCount < s.cp.PoolMax := by omega
    refine ⟨_, putAll_append hs s (by rw [hb]; simpa using hle), by simp [State.withPool, hb], ?_⟩
    have hd := getN_drains hs (s.withPool { s.cp.Pool with buf := s.cp.Pool.buf ++ hs }) []
      (withPool_idle s _ hidle) (by simpa [State.withPool] using hge)
      (by simp [State.withPool, hb])
    rw [hd]
    obtain ⟨created, ⟨⟨cap, buf⟩, mutex, count, max⟩⟩ := s
    simp only at hb
    simp [State.withPool, hb]
  · exact ⟨_, _, _, _, rfl, rfl, by decide, rfl, by decide⟩

/-- Witness of C6: at the ceiling of a pool of capacity 2 with both handles
queued, `Get` returns the one released first. -/
theorem Get_fifo_witness :
    Get { created := [{ ref := 0, Index := 0 }, { ref := 1, Index := 1 }]
          cp := { Pool := { cap := 2, buf := [{ ref := 1, Index := 1 }, { ref := 0, Index := 0 }] }
                  PoolMutex := RWMutex.new, PoolCount := 2, PoolMax := 2 } } =
      some ({ ref := 1, Index := 1 },
        { created := [{ ref := 0, Index := 0 }, { ref := 1, Index := 1 }]
          cp := { Pool := { cap := 2, buf := [{ ref := 0, Index := 0 }] }
                  PoolMutex := RWMutex.new, PoolCount := 2, PoolMax := 2 } }) :=
  Get_fifo.1
    { created := [{ ref := 0, Index := 0 }, { ref := 1, Index := 1 }]
      cp := { Pool := { cap := 2, buf := [{ ref := 1, Index := 1 }, { ref := 0, Index := 0 }] }
              PoolMutex := RWMutex.new, PoolCount := 2, PoolMax := 2 } }
    { ref := 1, Index := 1 } [{ ref := 0, Index := 0 }] (by decide) (by decide) (by decide)

/-- C7 (Put only enqueues): in every pool state whose channel has the capacity
`PoolMax` and whose queue holds fewer than `PoolMax` entries, `Put(h)` returns
`true` for every handle `h` whatsoever, the queue becomes the old queue with `h`
appended at the tail, and nothing else changes. Whenever `Put` returns at all,
it returns `true`, with `PoolCount`, `PoolMax`, the lock and the set of created
handles unchanged. -/
theorem Put_enqueues :
    (∀ (s : State) (h : Composer), (s.cp.Pool.cap : Int) = s.cp.PoolMax →
      (s.cp.Pool.buf.length : Int) < s.cp.PoolMax →
      Put h s = some (true, s.withPool { s.cp.Pool with buf := s.cp.Pool.buf ++ [h] })) ∧
    (∀ (s : State) (h : Composer) (b : Bool) (s1 : State), Put h s = some (b, s1) →
      b = true ∧ s1.cp.Pool.buf = s.cp.Pool.buf ++ [h] ∧ s1.cp.Pool.cap = s.cp.Pool.cap ∧
        s1.cp.PoolCount = s.cp.PoolCount ∧ s1.cp.PoolMax = s.cp.PoolMax ∧
        s1.cp.PoolMutex = s.cp.PoolMutex ∧ s1.created = s.created) := by
  refine ⟨?_, ?_⟩
  · intro s h hcap hlt
    have hlt2 : s.cp.Pool.buf.length < s.cp.Pool.cap := by omega
    simp [Put, Chan.send, hlt2]
  · intro s h b s1 hput
    by_cases hlt : s.cp.Pool.buf.length < s.cp.Pool.cap
    · simp only [Put, Chan.send, hlt, if_true, Option.some.injEq, Prod.mk.injEq] at hput
      obtain ⟨hb, hs⟩ := hput
      subst hs
      exact ⟨hb.symm, rfl, rfl, rfl, rfl, rfl, rfl⟩
    · simp [Put, Chan.send, hlt] at hput

/-- Witness of C7: a handle that this pool never created is enqueued behind the
one already queued. -/
theorem Put_enqueues_witness :
    Put { ref := 7, Index := 3 }
        { created := [{ ref := 0, Index := 0 }]
          cp := { Pool := { cap := 2, buf := [{ ref := 0, Index := 0 }] }
                  PoolMutex := RWMutex.new, PoolCount := 1, PoolMax := 2 } } =
      some (true,
        { created := [{ ref := 0, Index := 0 }]
          cp := { Pool := { cap := 2, buf := [{ ref := 0, Index := 0 }, { ref := 7, Index := 3 }] }
                  PoolMutex := RWMutex.new, PoolCount := 1, PoolMax := 2 } }) :=
  Put_enqueues.1
    { created := [{ ref := 0, Index := 0 }]
      cp := { Pool := { cap := 2, buf := [{ ref := 0, Index := 0 }] }
              PoolMutex := RWMutex.new, PoolCount := 1, PoolMax := 2 } }
    { ref := 7, Index := 3 } (by decide) (by decide)

/-- C8 (on the code): when the queue already holds `PoolMax` entries the send of
`Put` blocks, so `Put` does not return and discards nothing. On
`NewComposerPool(1)`, after `Get` and `Put` of the handle obtained the queue
holds `PoolMax = 1` entry, and a further `Put` of any handle does not return. -/
theorem Put_full_blocks :
    (∀ (s : State) (h : Composer), s.cp.Pool.buf.length = s.cp.Pool.cap → Put h s = none) ∧
    (∃ s0 r s1 s2, NewComposerPool 1 = some s0 ∧ Get s0 = some (r, s1) ∧
        Put r s1 = some (true, s2) ∧ (s2.cp.Pool.buf.length : Int) = s2.cp.PoolMax ∧
        ∀ h, Put h s2 = none) := by
  have key : ∀ (s : State) (h : Composer), s.cp.Pool.buf.length = s.cp.Pool.cap →
      Put h s = none := by
    intro s h hfull
    simp [Put, Chan.send, hfull]
  refine ⟨key, _, _, _, _, rfl, rfl, rfl, by decide, ?_⟩
  intro h
  exact key _ h (by decide)

/-! ## The interleaved system: invariants -/

theorem getElem?_split {α : Type} (l : List α) (i : Nat) (c : α) (h : l[i]? = some c) :
    ∃ l1 l2, l = l1 ++ c :: l2 ∧ l1.length = i ∧ ∀ d, l.set i d = l1 ++ d :: l2 := by
  induction l generalizing i with
  | nil => simp at h
  | cons x xs ih =>
    cases i with
    | zero =>
      simp only [List.getElem?_cons_zero, Option.some.injEq] at h
      subst h
      exact ⟨[], xs, rfl, rfl, fun d => rfl⟩
    | succ i =>
      simp only [List.getElem?_cons_succ] at h
      obtain ⟨l1, l2, h1, h2, h3⟩ := ih i h
      refine ⟨x :: l1, l2, by simp [h1], by simp [h2], fun d => ?_⟩
      simp [List.set, h3 d]

theorem heldBy_append (l1 l2 : List Call) : heldBy (l1 ++ l2) = heldBy l1 ++ heldBy l2 := by
  induction l1 with
  | nil => rfl
  | cons c cs ih => simp [heldBy, ih]

theorem heldBy_cons (c : Call) (l : List Call) : heldBy (c :: l) = c.held ++ heldBy l := rfl

/-- A call that does not hold the exclusive lock constrains the counter in no
way that a change of `PoolCount` could break. -/
theorem Call.ok_of_not_holdsLock (c : Call) (s s1 : State) (h : c.holdsLock = false)
    (hmax : s1.cp.PoolMax = s.cp.PoolMax) (hok : c.ok s) : c.ok s1 := by
  cases c with
  | getRecv locked =>
    cases locked with
    | true => simp [Call.holdsLock] at h
    | false => trivial
  | getWantLock => simpa [Call.ok, hmax] using hok
  | getLocked => simp [Call.holdsLock] at h
  | getCreate => simp [Call.holdsLock] at h
  | _ => trivial

/-- The constraint of a call only reads `PoolCount` and `PoolMax`. -/
theorem Call.ok_congr (c : Call) (s s1 : State) (hcount : s1.cp.PoolCount = s.cp.PoolCount)
    (hmax : s1.cp.PoolMax = s.cp.PoolMax) (hok : c.ok s) : c.ok s1 := by
  cases c with
  | getRecv locked =>
    cases locked with
    | true => simpa [Call.ok, hcount, hmax] using hok
    | false => trivial
  | getWantLock => simpa [Call.ok, hmax] using hok
  | getLocked => simpa [Call.ok, hmax] using hok
  | getCreate => simpa [Call.ok, hcount, hmax] using hok
  | _ => trivial

/-- Mutual exclusion: next to a call that holds the exclusive lock no other call
holds it. -/
theorem others_not_holdsLock (l1 l2 : List Call) (c : Call) (n : Nat) (hn : n ≤ 1)
    (hcount : (l1 ++ c :: l2).countP Call.holdsLock = n) (hc : c.holdsLock = true) :
    ∀ x ∈ l1 ++ l2, x.holdsLock = false := by
  intro x hx
  simp only [List.countP_append, List.countP_cons, hc, if_true] at hcount
  have h1 : l1.countP Call.holdsLock = 0 := by omega
  have h2 : l2.countP Call.holdsLock = 0 := by omega
  rw [List.countP_eq_zero] at h1 h2
  rcases List.mem_append.1 hx with h | h
  · simpa using h1 x h
  · simpa using h2 x h

theorem ok_replace (s1 : State) (l1 l2 : List Call) (c1 : Call) (hc1 : c1.ok s1)
    (hrest : ∀ x ∈ l1 ++ l2, x.ok s1) : ∀ x ∈ l1 ++ c1 :: l2, x.ok s1 := by
  intro x hx
  rcases List.mem_append.1 hx with h | h
  · exact hrest x (List.mem_append_left _ h)
  · rcases List.mem_cons.1 h with h | h
    · rw [h]; exact hc1
    · exact hrest x (List.mem_append_right _ h)

theorem stepCall_inv (max : Int) (s s1 : State) (l1 l2 : List Call) (c c1 : Call)
    (hinv : Inv max { st := s, calls := l1 ++ c :: l2 })
    (hstep : stepCall c s = some (c1, s1)) :
    Inv max { st := s1, calls := l1 ++ c1 :: l2 } := by
  obtain ⟨hmax, hcap, hbuf, hlo, hhi, hlen, hrefs, hlock, hrlock, hrw, hok⟩ := hinv
  obtain ⟨created, ⟨⟨cap, buf⟩, ⟨readers, writer⟩, count, pmax⟩⟩ := s
  simp only at hmax hcap hbuf hlo hhi hlen hrefs hlock hrlock hrw hok
  have hlock0 := hlock
  simp only [List.countP_append, List.countP_cons] at hlock hrlock
  have hokc : c.ok _ := hok c (by simp)
  have hok1 : ∀ x ∈ l1 ++ l2, x.ok _ := fun x hx => hok x (by
    rcases List.mem_append.1 hx with h | h
    · exact List.mem_append_left _ h
    · exact List.mem_append_right _ (List.mem_cons_of_mem _ h))
  cases c with
  | getEnter =>
    cases writer with
    | true => simp [stepCall, RWMutex.RLock] at hstep
    | false =>
      simp only [stepCall, RWMutex.RLock, State.withMutex, Option.some.injEq, Prod.mk.injEq] at hstep
      obtain ⟨rfl, rfl⟩ := hstep
      refine ⟨hmax, hcap, hbuf, hlo, hhi, hlen, hrefs, ?_, ?_, ?_,
        ok_replace _ l1 l2 _ trivial (fun x hx => Call.ok_congr x _ _ rfl rfl (hok1 x hx))⟩
      · simpa [Call.holdsLock] using hlock
      · simp [Call.holdsRLock] at hrlock ⊢
        omega
      · simp
  | getRLocked =>
    by_cases hlt : count < pmax
    · simp only [stepCall, hlt, if_true, RWMutex.RUnlock, State.withMutex, Option.some.injEq,
        Prod.mk.injEq] at hstep
      obtain ⟨rfl, rfl⟩ := hstep
      refine ⟨hmax, hcap, hbuf, hlo, hhi, hlen, hrefs, ?_, ?_, ?_,
        ok_replace _ l1 l2 _ (by simp only [Call.ok]; omega)
          (fun x hx => Call.ok_congr x _ _ rfl rfl (hok1 x hx))⟩
      · simpa [Call.holdsLock] using hlock
      · simp [Call.holdsRLock] at hrlock ⊢
        omega
      · intro hw; simp only at hw ⊢; have := hrw hw; omega
    · simp only [stepCall, hlt, if_false, RWMutex.RUnlock, State.withMutex, Option.some.injEq,
        Prod.mk.injEq] at hstep
      obtain ⟨rfl, rfl⟩ := hstep
      refine ⟨hmax, hcap, hbuf, hlo, hhi, hlen, hrefs, ?_, ?_, ?_,
        ok_replace _ l1 l2 _ trivial (fun x hx => Call.ok_congr x _ _ rfl rfl (hok1 x hx))⟩
      · simpa [Call.holdsLock] using hlock
      · simp [Call.holdsRLock] at hrlock ⊢
        omega
      · intro hw; simp only at hw ⊢; have := hrw hw; omega
  | getWantLock =>
    by_cases hfree : writer = false ∧ readers = 0
    · simp only [stepCall, RWMutex.Lock, hfree, State.withMutex, Option.some.injEq,
        Prod.mk.injEq] at hstep
      simp only [and_self, if_true, Option.some.injEq, Prod.mk.injEq] at hstep
      obtain ⟨rfl, rfl⟩ := hstep
      obtain ⟨hw, hr⟩ := hfree
      subst hw hr
      refine ⟨hmax, hcap, hbuf, hlo, hhi, hlen, hrefs, ?_, ?_, ?_,
        ok_replace _ l1 l2 _ hokc (fun x hx => Call.ok_congr x _ _ rfl rfl (hok1 x hx))⟩
      · simp only [Call.holdsLock, Bool.false_eq_true, if_false, if_true, add_zero,
          List.countP_append, List.countP_cons] at hlock ⊢
        omega
      · simpa [Call.holdsRLock] using hrlock
      · simp
    · simp [stepCall, RWMutex.Lock, hfree] at hstep
  | getLocked =>
    by_cases hlt : count < pmax
    · simp only [stepCall, hlt, if_true, Option.some.injEq, Prod.mk.injEq] at hstep
      obtain ⟨rfl, rfl⟩ := hstep
      refine ⟨hmax, hcap, hbuf, hlo, hhi, hlen, hrefs, ?_, ?_, hrw,
        ok_replace _ l1 l2 _ hlt (fun x hx => Call.ok_congr x _ _ rfl rfl (hok1 x hx))⟩
      · simpa [Call.holdsLock] using hlock
      · simpa [Call.holdsRLock] using hrlock
    · simp only [stepCall, hlt, if_false, Option.some.injEq, Prod.mk.injEq] at hstep
      obtain ⟨rfl, rfl⟩ := hstep
      refine ⟨hmax, hcap, hbuf, hlo, hhi, hlen, hrefs, ?_, ?_, hrw,
        ok_replace _ l1 l2 _ ⟨by simp only; omega, hokc⟩
          (fun x hx => Call.ok_congr x _ _ rfl rfl (hok1 x hx))⟩
      · simpa [Call.holdsLock] using hlock
      · simpa [Call.holdsRLock] using hrlock
  | getCreate =>
    simp only [stepCall, createComposer, NewComposer, Option.some.injEq, Prod.mk.injEq] at hstep
    obtain ⟨rfl, rfl⟩ := hstep
    have hlt : count < pmax := hokc
    have hothers := others_not_holdsLock l1 l2 Call.getCreate _
      (by split <;> omega) hlock0 rfl
    refine ⟨hmax, hcap, hbuf, by simp only; omega, by simp only; omega, ?_, ?_, ?_, ?_, hrw,
      ok_replace _ l1 l2 _ trivial
        (fun x hx => Call.ok_of_not_holdsLock x _ _ (hothers x hx) (by rfl) (hok1 x hx))⟩
    · simp only [List.length_append, List.length_singleton]; push_cast; omega
    · intro i c hi
      simp only at hi
      by_cases hil : i < created.length
      · rw [List.getElem?_append_left hil] at hi
        exact hrefs i c hi
      · have hge : created.length ≤ i := by omega
        rw [List.getElem?_append_right hge] at hi
        have h0 : i - created.length = 0 := by
          by_contra hne
          have : i - created.length = (i - created.length - 1) + 1 := by omega
          rw [this] at hi
          simp at hi
        rw [h0] at hi
        simp only [List.getElem?_cons_zero, Option.some.injEq] at hi
        subst hi
        simp only
        constructor
        · omega
        · have : (i : Int) = created.length := by omega
          rw [this, hlen]
    · simpa [Call.holdsLock] using hlock
    · simpa [Call.holdsRLock] using hrlock
  | getRecv locked =>
    cases buf with
    | nil => simp [stepCall, Chan.recv] at hstep
    | cons r rest =>
      simp only [stepCall, Chan.recv, State.withPool, Option.some.injEq, Prod.mk.injEq] at hstep
      obtain ⟨rfl, rfl⟩ := hstep
      refine ⟨hmax, hcap, ?_, hlo, hhi, hlen, hrefs, ?_, ?_, hrw,
        ok_replace _ l1 l2 _ (by cases locked <;> trivial)
          (fun x hx => Call.ok_congr x _ _ rfl rfl (hok1 x hx))⟩
      · simp only [List.length_cons] at hbuf ⊢; omega
      · cases locked <;> simpa [Call.holdsLock] using hlock
      · cases locked <;> simpa [Call.holdsRLock] using hrlock
  | getReturn result =>
    simp only [stepCall, RWMutex.Unlock, State.withMutex, Option.some.injEq, Prod.mk.injEq] at hstep
    obtain ⟨rfl, rfl⟩ := hstep
    refine ⟨hmax, hcap, hbuf, hlo, hhi, hlen, hrefs, ?_, ?_, ?_,
      ok_replace _ l1 l2 _ trivial (fun x hx => Call.ok_congr x _ _ rfl rfl (hok1 x hx))⟩
    · simp only [Call.holdsLock, if_true, List.countP_append, List.countP_cons,
        Bool.false_eq_true, if_false] at hlock ⊢
      cases writer
      · simp only [Bool.false_eq_true, if_false] at hlock; omega
      · simp only [if_true] at hlock; omega
    · simpa [Call.holdsRLock] using hrlock
    · simp
  | getDone result => simp [stepCall] at hstep
  | putSend composer =>
    by_cases hlt : buf.length < cap
    · simp only [stepCall, Chan.send, hlt, if_true, State.withPool, Option.some.injEq,
        Prod.mk.injEq] at hstep
      obtain ⟨rfl, rfl⟩ := hstep
      refine ⟨hmax, hcap, ?_, hlo, hhi, hlen, hrefs, ?_, ?_, hrw,
        ok_replace _ l1 l2 _ trivial (fun x hx => Call.ok_congr x _ _ rfl rfl (hok1 x hx))⟩
      · simp only [List.length_append, List.length_singleton]; omega
      · simpa [Call.holdsLock] using hlock
      · simpa [Call.holdsRLock] using hrlock
    · simp [stepCall, Chan.send, hlt] at hstep
  | putDone => simp [stepCall] at hstep

/-- Replacing a call by one with the same lock status and a satisfied
constraint, the state untouched, keeps the invariant. -/
theorem replace_inv (max : Int) (s : State) (l1 l2 : List Call) (c c1 : Call)
    (hinv : Inv max { st := s, calls := l1 ++ c :: l2 })
    (hl : c1.holdsLock = c.holdsLock) (hr : c1.holdsRLock = c.holdsRLock) (hc1 : c1.ok s) :
    Inv max { st := s, calls := l1 ++ c1 :: l2 } := by
  obtain ⟨hmax, hcap, hbuf, hlo, hhi, hlen, hrefs, hlock, hrlock, hrw, hok⟩ := hinv
  refine ⟨hmax, hcap, hbuf, hlo, hhi, hlen, hrefs, ?_, ?_, hrw, ?_⟩
  · simp only [List.countP_append, List.countP_cons, hl] at hlock ⊢
    exact hlock
  · simp only [List.countP_append, List.countP_cons, hr] at hrlock ⊢
    exact hrlock
  · apply ok_replace _ l1 l2 _ hc1
    intro x hx
    apply hok x
    rcases List.mem_append.1 hx with h | h
    · exact List.mem_append_left _ h
    · exact List.mem_append_right _ (List.mem_cons_of_mem _ h)

/-- A new call that holds no lock and has a trivial constraint keeps the
invariant. -/
theorem append_inv (max : Int) (y : Sys) (c : Call) (hinv : Inv max y)
    (hl : c.holdsLock = false) (hr : c.holdsRLock = false) (hc : ∀ s, c.ok s) :
    Inv max { y with calls := y.calls ++ [c] } := by
  obtain ⟨hmax, hcap, hbuf, hlo, hhi, hlen, hrefs, hlock, hrlock, hrw, hok⟩ := hinv
  refine ⟨hmax, hcap, hbuf, hlo, hhi, hlen, hrefs, ?_, ?_, hrw, ?_⟩
  · simpa [List.countP_append, List.countP_cons, hl] using hlock
  · simpa [List.countP_append, List.countP_cons, hr] using hrlock
  · intro x hx
    rcases List.mem_append.1 hx with h | h
    · exact hok x h
    · simp only [List.mem_singleton] at h
      rw [h]; exact hc _

/-- Every enabled action keeps the invariant. -/
theorem exec_inv (max : Int) (a : Action) (y y1 : Sys) (hinv : Inv max y)
    (hexec : exec a y = some y1) : Inv max y1 := by
  cases a with
  | callGet =>
    simp only [exec, Option.some.injEq] at hexec
    subst hexec
    exact append_inv max y _ hinv rfl rfl (fun _ => trivial)
  | callPut composer =>
    simp only [exec, Option.some.injEq] at hexec
    subst hexec
    exact append_inv max y _ hinv rfl rfl (fun _ => trivial)
  | release i =>
    cases hc : y.calls[i]? with
    | none => simp [exec, hc] at hexec
    | some c =>
      obtain ⟨l1, l2, h1, _, h3⟩ := getElem?_split y.calls i c hc
      cases c <;> simp only [exec, hc, Option.some.injEq, reduceCtorEq] at hexec
      subst hexec
      rw [h3]
      obtain ⟨st, calls⟩ := y
      simp only at h1 hinv ⊢
      subst h1
      exact replace_inv max st l1 l2 _ _ hinv rfl rfl trivial
  | step i =>
    cases hc : y.calls[i]? with
    | none => simp [exec, hc] at hexec
    | some c =>
      obtain ⟨l1, l2, h1, _, h3⟩ := getElem?_split y.calls i c hc
      cases hs : stepCall c y.st with
      | none => simp [exec, hc, hs] at hexec
      | some p =>
        obtain ⟨c1, s1⟩ := p
        simp only [exec, hc, hs, Option.some.injEq] at hexec
        subst hexec
        rw [h3]
        obtain ⟨st, calls⟩ := y
        simp only at h1 hinv hs ⊢
        subst h1
        exact stepCall_inv max st s1 l1 l2 c c1 hinv hs
  | handoff i j =>
    cases hi : y.calls[i]? with
    | none => simp [exec, hi] at hexec
    | some ci =>
      cases hj : y.calls[j]? with
      | none => cases ci <;> simp [exec, hi, hj] at hexec
      | some cj =>
        cases ci <;> cases cj <;> simp only [exec, hi, hj, reduceCtorEq] at hexec
        rename_i composer locked
        by_cases hb : y.st.cp.Pool.buf = []
        · simp only [hb, if_true, Option.some.injEq] at hexec
          subst hexec
          have hij : i ≠ j := by
            intro h; rw [h, hj] at hi; simp at hi
          obtain ⟨l1, l2, h1, _, h3⟩ := getElem?_split y.calls i _ hi
          have hj1 : (y.calls.set i Call.putDone)[j]? = some (Call.getRecv locked) := by
            rw [List.getElem?_set_ne hij]; exact hj
          obtain ⟨l3, l4, h4, _, h6⟩ := getElem?_split _ j _ hj1
          rw [h6]
          obtain ⟨st, calls⟩ := y
          simp only at h1 h3 h4 hinv ⊢
          subst h1
          have hinv1 := replace_inv max st l1 l2 _ Call.putDone hinv rfl rfl trivial
          rw [← h3 Call.putDone, h4] at hinv1
          exact replace_inv max st l3 l4 _ _ hinv1 (by cases locked <;> rfl)
            (by cases locked <;> rfl) (by cases locked <;> trivial)
        · simp [hb] at hexec

theorem init_some (max : Int) (y : Sys) (h : Sys.init max = some y) :
    0 ≤ max ∧ y = { st := { created := []
                            cp := { Pool := { cap := max.toNat, buf := [] }
                                    PoolCount := 0, PoolMax := max
                                    PoolMutex := RWMutex.new } }
                    calls := [] } := by
  cases hn : NewComposerPool max with
  | none => simp [Sys.init, hn] at h
  | some s0 =>
    obtain ⟨h0, rfl⟩ := NewComposerPool_some max s0 hn
    simp only [Sys.init, hn, Option.some.injEq] at h
    exact ⟨h0, h.symm⟩

theorem init_inv (max : Int) (y : Sys) (h : Sys.init max = some y) : Inv max y := by
  obtain ⟨h0, rfl⟩ := init_some max y h
  refine ⟨rfl, ?_, ?_, ?_, ?_, ?_, ?_, ?_, ?_, ?_, ?_⟩ <;>
    simp [RWMutex.new] <;> omega

/-- Every schedule keeps the invariant. -/
theorem run_inv (max : Int) (sched : List Action) : ∀ (y y1 : Sys), Inv max y →
    run sched y = some y1 → Inv max y1 := by
  induction sched with
  | nil =>
    intro y y1 hinv h
    simp only [run, Option.some.injEq] at h
    subst h; exact hinv
  | cons a as ih =>
    intro y y1 hinv h
    cases ha : exec a y with
    | none => simp [run, ha] at h
    | some y2 =>
      simp only [run, ha] at h
      exact ih y2 y1 (exec_inv max a y y2 hinv ha) h

/-! ## The interleaved system under the contract of `Put`: conservation -/

theorem conserved_iff (y : Sys) : Conserved y ↔ ∀ a, y.st.created.count a =
    (heldBy y.calls).count a + y.st.cp.Pool.buf.count a := by
  simp only [Conserved, List.perm_iff_count, List.count_append]

theorem stepCall_conserved (s s1 : State) (l1 l2 : List Call) (c c1 : Call)
    (hcons : Conserved { st := s, calls := l1 ++ c :: l2 })
    (hstep : stepCall c s = some (c1, s1)) :
    Conserved { st := s1, calls := l1 ++ c1 :: l2 } := by
  rw [conserved_iff] at hcons ⊢
  obtain ⟨created, ⟨⟨cap, buf⟩, ⟨readers, writer⟩, count, pmax⟩⟩ := s
  simp only [heldBy_append, heldBy_cons, List.count_append] at hcons ⊢
  intro a
  have ha := hcons a
  cases c with
  | getEnter =>
    cases writer with
    | true => simp [stepCall, RWMutex.RLock] at hstep
    | false =>
      simp only [stepCall, RWMutex.RLock, State.withMutex, Option.some.injEq, Prod.mk.injEq] at hstep
      obtain ⟨rfl, rfl⟩ := hstep
      simpa [Call.held] using ha
  | getRLocked =>
    by_cases hlt : count < pmax
    · simp only [stepCall, hlt, if_true, RWMutex.RUnlock, State.withMutex, Option.some.injEq,
        Prod.mk.injEq] at hstep
      obtain ⟨rfl, rfl⟩ := hstep
      simpa [Call.held] using ha
    · simp only [stepCall, hlt, if_false, RWMutex.RUnlock, State.withMutex, Option.some.injEq,
        Prod.mk.injEq] at hstep
      obtain ⟨rfl, rfl⟩ := hstep
      simpa [Call.held] using ha
  | getWantLock =>
    by_cases hfree : writer = false ∧ readers = 0
    · simp only [stepCall, RWMutex.Lock, hfree, State.withMutex, Option.some.injEq,
        Prod.mk.injEq] at hstep
      simp only [and_self, if_true, Option.some.injEq, Prod.mk.injEq] at hstep
      obtain ⟨rfl, rfl⟩ := hstep
      simpa [Call.held] using ha
    · simp [stepCall, RWMutex.Lock, hfree] at hstep
  | getLocked =>
    by_cases hlt : count < pmax
    · simp only [stepCall, hlt, if_true, Option.some.injEq, Prod.mk.injEq] at hstep
      obtain ⟨rfl, rfl⟩ := hstep
      simpa [Call.held] using ha
    · simp only [stepCall, hlt, if_false, Option.some.injEq, Prod.mk.injEq] at hstep
      obtain ⟨rfl, rfl⟩ := hstep
      simpa [Call.held] using ha
  | getCreate =>
    simp only [stepCall, createComposer, NewComposer, Option.some.injEq, Prod.mk.injEq] at hstep
    obtain ⟨rfl, rfl⟩ := hstep
    simp only [Call.held, List.count_append, List.count_nil, add_zero, zero_add] at ha ⊢
    omega
  | getRecv locked =>
    cases buf with
    | nil => simp [stepCall, Chan.recv] at hstep
    | cons r rest =>
      simp only [stepCall, Chan.recv, State.withPool, Option.some.injEq, Prod.mk.injEq] at hstep
      obtain ⟨rfl, rfl⟩ := hstep
      cases locked <;>
        simp only [Call.held, List.count_cons, List.count_nil, add_zero, zero_add, if_true,
          if_false, Bool.false_eq_true] at ha ⊢ <;> omega
  | getReturn result =>
    simp only [stepCall, RWMutex.Unlock, State.withMutex, Option.some.injEq, Prod.mk.injEq] at hstep
    obtain ⟨rfl, rfl⟩ := hstep
    simpa [Call.held] using ha
  | getDone result => simp [stepCall] at hstep
  | putSend composer =>
    by_cases hlt : buf.length < cap
    · simp only [stepCall, Chan.send, hlt, if_true, State.withPool, Option.some.injEq,
        Prod.mk.injEq] at hstep
      obtain ⟨rfl, rfl⟩ := hstep
      simp only [Call.held, List.count_append, List.count_cons, List.count_nil, add_zero,
        zero_add] at ha ⊢
      omega
    · simp [stepCall, Chan.send, hlt] at hstep
  | putDone => simp [stepCall] at hstep

/-- Replacing one call by another shifts the held handles by exactly what the
two calls hold. -/
theorem heldBy_count_replace (l1 l2 : List Call) (c c1 : Call) (a : Composer) :
    (heldBy (l1 ++ c1 :: l2)).count a + c.held.count a =
      (heldBy (l1 ++ c :: l2)).count a + c1.held.count a := by
  simp only [heldBy_append, heldBy_cons, List.count_append]
  omega

/-- Every enabled action that respects the contract of `Put` keeps
conservation. -/
theorem exec_conserved (a : Action) (y y1 : Sys) (ha : a.contractual = true)
    (hcons : Conserved y) (hexec : exec a y = some y1) : Conserved y1 := by
  cases a with
  | callGet =>
    simp only [exec, Option.some.injEq] at hexec
    subst hexec
    rw [conserved_iff] at hcons ⊢
    intro x
    simpa [heldBy_append, heldBy_cons, Call.held, heldBy] using hcons x
  | callPut composer => simp [Action.contractual] at ha
  | release i =>
    cases hc : y.calls[i]? with
    | none => simp [exec, hc] at hexec
    | some c =>
      obtain ⟨l1, l2, h1, _, h3⟩ := getElem?_split y.calls i c hc
      cases c <;> simp only [exec, hc, Option.some.injEq, reduceCtorEq] at hexec
      rename_i result
      subst hexec
      rw [conserved_iff] at hcons ⊢
      intro x
      have hx := hcons x
      have hrep := heldBy_count_replace l1 l2 (Call.getDone result) (Call.putSend result) x
      simp only [h3]
      rw [h1] at hx
      simp only [Call.held] at hrep
      omega
  | step i =>
    cases hc : y.calls[i]? with
    | none => simp [exec, hc] at hexec
    | some c =>
      obtain ⟨l1, l2, h1, _, h3⟩ := getElem?_split y.calls i c hc
      cases hs : stepCall c y.st with
      | none => simp [exec, hc, hs] at hexec
      | some p =>
        obtain ⟨c1, s1⟩ := p
        simp only [exec, hc, hs, Option.some.injEq] at hexec
        subst hexec
        rw [h3]
        obtain ⟨st, calls⟩ := y
        simp only at h1 hcons hs ⊢
        subst h1
        exact stepCall_conserved st s1 l1 l2 c c1 hcons hs
  | handoff i j =>
    cases hi : y.calls[i]? with
    | none => simp [exec, hi] at hexec
    | some ci =>
      cases hj : y.calls[j]? with
      | none => cases ci <;> simp [exec, hi, hj] at hexec
      | some cj =>
        cases ci <;> cases cj <;> simp only [exec, hi, hj, reduceCtorEq] at hexec
        rename_i composer locked
        by_cases hb : y.st.cp.Pool.buf = []
        · simp only [hb, if_true, Option.some.injEq] at hexec
          subst hexec
          have hij : i ≠ j := by
            intro h; rw [h, hj] at hi; simp at hi
          obtain ⟨l1, l2, h1, _, h3⟩ := getElem?_split y.calls i _ hi
          have hj1 : (y.calls.set i Call.putDone)[j]? = some (Call.getRecv locked) := by
            rw [List.getElem?_set_ne hij]; exact hj
          obtain ⟨l3, l4, h4, _, h6⟩ := getElem?_split _ j _ hj1
          rw [conserved_iff] at hcons ⊢
          intro x
          have hx := hcons x
          have hrep1 := heldBy_count_replace l1 l2 (Call.putSend composer) Call.putDone x
          have hrep2 := heldBy_count_replace l3 l4 (Call.getRecv locked)
            (if locked then Call.getReturn composer else Call.getDone composer) x
          simp only [h6]
          rw [h1] at hx
          rw [← h3 Call.putDone, h4] at hrep1
          have hheld : (if locked then Call.getReturn composer
              else Call.getDone composer).held = [composer] := by
            cases locked <;> rfl
          rw [hheld] at hrep2
          simp only [Call.held, List.count_nil] at hrep1 hrep2
          omega
        · simp [hb] at hexec

theorem init_conserved (max : Int) (y : Sys) (h : Sys.init max = some y) : Conserved y := by
  obtain ⟨_, rfl⟩ := init_some max y h
  simp [Conserved, heldBy]

/-- Every schedule that respects the contract of `Put` keeps conservation. -/
theorem run_conserved (sched : List Action) : ∀ (y y1 : Sys),
    (∀ a ∈ sched, a.contractual = true) → Conserved y → run sched y = some y1 →
    Conserved y1 := by
  induction sched with
  | nil =>
    intro y y1 _ hcons h
    simp only [run, Option.some.injEq] at h
    subst h; exact hcons
  | cons a as ih =>
    intro y y1 hall hcons h
    cases ha : exec a y with
    | none => simp [run, ha] at h
    | some y2 =>
      simp only [run, ha] at h
      exact ih y2 y1 (fun b hb => hall b (List.mem_cons_of_mem _ hb))
        (exec_conserved a y y2 (hall a (List.mem_cons_self _ _)) hcons ha) h

/-- The created handles are pairwise distinct instances. -/
theorem created_nodup (max : Int) (y : Sys) (hinv : Inv max y) : y.st.created.Nodup := by
  rw [List.nodup_iff_getElem?_ne_getElem?]
  intro i j hij hj h
  have hi : i < y.st.created.length := by omega
  have h1 := hinv.hrefs i _ (List.getElem?_eq_getElem hi)
  have h2 := hinv.hrefs j _ (List.getElem?_eq_getElem hj)
  rw [List.getElem?_eq_getElem hi, List.getElem?_eq_getElem hj, Option.some.injEq] at h
  rw [h] at h1
  omega

theorem mem_heldBy (l : List Call) (c : Call) (r : Composer) (hc : c ∈ l) (hr : r ∈ c.held) :
    r ∈ heldBy l := by
  induction l with
  | nil => simp at hc
  | cons x xs ih =>
    rcases List.mem_cons.1 hc with h | h
    · subst h; exact List.mem_append_left _ hr
    · exact List.mem_append_right _ (ih h)

/-- If the held handles are pairwise distinct, two different calls never hold
the same handle. -/
theorem held_disjoint (calls : List Call) (hnd : (heldBy calls).Nodup) (i j : Nat)
    (ci cj : Call) (r : Composer) (hij : i ≠ j) (hi : calls[i]? = some ci)
    (hj : calls[j]? = some cj) (hri : r ∈ ci.held) : r ∉ cj.held := by
  intro hrj
  obtain ⟨l1, l2, h1, hlen, _⟩ := getElem?_split calls i ci hi
  subst h1
  have hcount := List.nodup_iff_count_le_one.1 hnd r
  simp only [heldBy_append, heldBy_cons, List.count_append] at hcount
  have hci : 0 < ci.held.count r := List.count_pos_iff.2 hri
  by_cases hlt : j < l1.length
  · rw [List.getElem?_append_left hlt] at hj
    have := List.count_pos_iff.2 (mem_heldBy l1 cj r (List.getElem?_mem hj) hrj)
    omega
  · have hge : l1.length ≤ j := by omega
    rw [List.getElem?_append_right hge] at hj
    have hsucc : j - l1.length = (j - l1.length - 1) + 1 := by omega
    rw [hsucc, List.getElem?_cons_succ] at hj
    have := List.count_pos_iff.2 (mem_heldBy l2 cj r (List.getElem?_mem hj) hrj)
    omega

theorem reach_inv (max : Int) (sched : List Action) (y : Sys)
    (hrun : reach max sched = some y) : Inv max y := by
  cases h0 : Sys.init max with
  | none => simp [reach, h0] at hrun
  | some y0 =>
    simp only [reach, h0] at hrun
    exact run_inv max sched y0 y (init_inv max y0 h0) hrun

theorem reach_conserved (max : Int) (sched : List Action) (y : Sys)
    (hsched : ∀ a ∈ sched, a.contractual = true)
    (hrun : reach max sched = some y) : Conserved y := by
  cases h0 : Sys.init max with
  | none => simp [reach, h0] at hrun
  | some y0 =>
    simp only [reach, h0] at hrun
    exact run_conserved sched y0 y hsched (init_conserved max y0 h0) hrun

/-- A step other than the creation leaves the counter and the created handles
alone. -/
theorem stepCall_created (c c1 : Call) (s s1 : State) (hc : c ≠ Call.getCreate)
    (hstep : stepCall c s = some (c1, s1)) :
    s1.created = s.created ∧ s1.cp.PoolCount = s.cp.PoolCount := by
  obtain ⟨created, ⟨⟨cap, buf⟩, ⟨readers, writer⟩, count, pmax⟩⟩ := s
  cases c with
  | getCreate => exact absurd rfl hc
  | getEnter =>
    cases writer <;> simp [stepCall, RWMutex.RLock, State.withMutex] at hstep
    rw [← hstep.2]; exact ⟨rfl, rfl⟩
  | getRLocked =>
    by_cases hlt : count < pmax <;>
      simp [stepCall, hlt, RWMutex.RUnlock, State.withMutex] at hstep <;>
      (rw [← hstep.2]; exact ⟨rfl, rfl⟩)
  | getWantLock =>
    by_cases hfree : writer = false ∧ readers = 0
    · simp [stepCall, RWMutex.Lock, hfree, State.withMutex] at hstep
      rw [← hstep.2]; exact ⟨rfl, rfl⟩
    · simp [stepCall, RWMutex.Lock, hfree] at hstep
  | getLocked =>
    by_cases hlt : count < pmax <;> simp [stepCall, hlt] at hstep <;>
      (rw [← hstep.2]; exact ⟨rfl, rfl⟩)
  | getRecv locked =>
    cases buf with
    | nil => simp [stepCall, Chan.recv] at hstep
    | cons r rest =>
      simp [stepCall, Chan.recv, State.withPool] at hstep
      rw [← hstep.2]; exact ⟨rfl, rfl⟩
  | getReturn result =>
    simp [stepCall, RWMutex.Unlock, State.withMutex] at hstep
    rw [← hstep.2]; exact ⟨rfl, rfl⟩
  | getDone result => simp [stepCall] at hstep
  | putSend composer =>
    by_cases hlt : buf.length < cap
    · simp [stepCall, Chan.send, hlt, State.withPool] at hstep
      rw [← hstep.2]; exact ⟨rfl, rfl⟩
    · simp [stepCall, Chan.send, hlt] at hstep
  | putDone => simp [stepCall] at hstep

/-- Once the ceiling is reached no action creates a handle. -/
theorem exec_ceiling (max : Int) (a : Action) (y y1 : Sys) (hinv : Inv max y)
    (hceil : y.st.cp.PoolCount = y.st.cp.PoolMax) (hexec : exec a y = some y1) :
    y1.st.created = y.st.created ∧ y1.st.cp.PoolCount = y.st.cp.PoolCount := by
  cases a with
  | callGet =>
    simp only [exec, Option.some.injEq] at hexec
    subst hexec; exact ⟨rfl, rfl⟩
  | callPut composer =>
    simp only [exec, Option.some.injEq] at hexec
    subst hexec; exact ⟨rfl, rfl⟩
  | release i =>
    cases hc : y.calls[i]? with
    | none => simp [exec, hc] at hexec
    | some c =>
      cases c <;> simp only [exec, hc, Option.some.injEq, reduceCtorEq] at hexec
      subst hexec; exact ⟨rfl, rfl⟩
  | step i =>
    cases hc : y.calls[i]? with
    | none => simp [exec, hc] at hexec
    | some c =>
      cases hs : stepCall c y.st with
      | none => simp [exec, hc, hs] at hexec
      | some p =>
        obtain ⟨c1, s1⟩ := p
        simp only [exec, hc, hs, Option.some.injEq] at hexec
        subst hexec
        have hne : c ≠ Call.getCreate := by
          intro h
          subst h
          have hok : y.st.cp.PoolCount < y.st.cp.PoolMax :=
            hinv.hok Call.getCreate (List.getElem?_mem hc)
          omega
        exact stepCall_created c c1 y.st s1 hne hs
  | handoff i j =>
    cases hi : y.calls[i]? with
    | none => simp [exec, hi] at hexec
    | some ci =>
      cases hj : y.calls[j]? with
      | none => cases ci <;> simp [exec, hi, hj] at hexec
      | some cj =>
        cases ci <;> cases cj <;> simp only [exec, hi, hj, reduceCtorEq] at hexec
        by_cases hb : y.st.cp.Pool.buf = []
        · simp only [hb, if_true, Option.some.injEq] at hexec
          subst hexec; exact ⟨rfl, rfl⟩
        · simp [hb] at hexec

theorem run_ceiling (max : Int) (sched : List Action) : ∀ (y y1 : Sys), Inv max y →
    y.st.cp.PoolCount = y.st.cp.PoolMax → run sched y = some y1 →
    y1.st.created = y.st.created ∧ y1.st.cp.PoolCount = y.st.cp.PoolCount := by
  induction sched with
  | nil =>
    intro y y1 _ _ h
    simp only [run, Option.some.injEq] at h
    subst h; exact ⟨rfl, rfl⟩
  | cons a as ih =>
    intro y y1 hinv hceil h
    cases ha : exec a y with
    | none => simp [run, ha] at h
    | some y2 =>
      simp only [run, ha] at h
      have h2 := exec_ceiling max a y y2 hinv hceil ha
      have hinv2 := exec_inv max a y y2 hinv ha
      have hceil2 : y2.st.cp.PoolCount = y2.st.cp.PoolMax := by
        rw [h2.2, hceil, hinv.hmax, hinv2.hmax]
      have h3 := ih y2 y1 hinv2 hceil2 h
      exact ⟨h3.1.trans h2.1, h3.2.trans h2.2⟩

theorem exec_step_eq (y : Sys) (i : Nat) (c c1 : Call) (s1 : State)
    (hc : y.calls[i]? = some c) (hs : stepCall c y.st = some (c1, s1)) :
    exec (Action.step i) y = some { st := s1, calls := y.calls.set i c1 } := by
  simp [exec, hc, hs]

/-! ## The two layers agree -/

/-- `Get` run with no other call in flight is the call of the interleaved
system stepped alone until it has returned or is blocked. -/
theorem Get_eq_runCall (s : State) :
    Get s = match runCall 6 Call.getEnter s with
      | (Call.getDone result, s1) => some (result, s1)
      | _ => none := by
  obtain ⟨created, ⟨⟨cap, buf⟩, ⟨readers, writer⟩, count, pmax⟩⟩ := s
  cases writer with
  | true => simp [Get, runCall, stepCall, RWMutex.RLock]
  | false =>
    by_cases hlt : count < pmax
    · cases readers with
      | zero =>
        simp [Get, runCall, stepCall, RWMutex.RLock, RWMutex.RUnlock, RWMutex.Lock,
          RWMutex.Unlock, State.withMutex, createComposer, hlt]
      | succ n =>
        simp [Get, runCall, stepCall, RWMutex.RLock, RWMutex.RUnlock, RWMutex.Lock,
          State.withMutex, hlt]
    · cases buf with
      | nil =>
        simp [Get, runCall, stepCall, RWMutex.RLock, RWMutex.RUnlock, State.withMutex,
          Chan.recv, hlt]
      | cons r rest =>
        simp [Get, runCall, stepCall, RWMutex.RLock, RWMutex.RUnlock, State.withMutex,
          State.withPool, Chan.recv, hlt]

/-- `Put` run with no other call in flight is the call of the interleaved
system stepped alone. -/
theorem Put_eq_runCall (composer : Composer) (s : State) :
    Put composer s = match runCall 1 (Call.putSend composer) s with
      | (Call.putDone, s1) => some (true, s1)
      | _ => none := by
  by_cases hlt : s.cp.Pool.buf.length < s.cp.Pool.cap
  · simp [Put, runCall, stepCall, Chan.send, hlt]
  · simp [Put, runCall, stepCall, Chan.send, hlt]

/-- Running call number `calls.length`, the last one, alone for `n` steps is
`runCall`: a schedule that steps a single call is an interleaving. -/
theorem run_steps_last (n : Nat) : ∀ (st : State) (calls : List Call) (c : Call),
    ∃ sched : List Action, (∀ a ∈ sched, a.contractual = true) ∧
      run sched { st := st, calls := calls ++ [c] } =
        some { st := (runCall n c st).2, calls := calls ++ [(runCall n c st).1] } := by
  induction n with
  | zero =>
    intro st calls c
    exact ⟨[], by simp, rfl⟩
  | succ n ih =>
    intro st calls c
    cases hs : stepCall c st with
    | none => exact ⟨[], by simp, by simp [run, runCall, hs]⟩
    | some p =>
      obtain ⟨c1, s1⟩ := p
      obtain ⟨sched, hall, hrun⟩ := ih s1 calls c1
      refine ⟨Action.step calls.length :: sched, ?_, ?_⟩
      · intro a ha
        rcases List.mem_cons.1 ha with h | h
        · subst h; rfl
        · exact hall a h
      · have hget : (calls ++ [c])[calls.length]? = some c := by simp
        have hexec := exec_step_eq { st := st, calls := calls ++ [c] } calls.length c c1 s1
          hget hs
        simp only [run, hexec, runCall, hs]
        simpa using hrun

/-- A `Get` that returns when run alone is a schedule of the interleaved
system: the call is made and stepped until it has returned. -/
theorem Get_as_schedule (y : Sys) (result : Composer) (s1 : State)
    (h : Get y.st = some (result, s1)) :
    ∃ sched : List Action, (∀ a ∈ sched, a.contractual = true) ∧
      run sched y = some { st := s1, calls := y.calls ++ [Call.getDone result] } := by
  obtain ⟨sched, hall, hrun⟩ := run_steps_last 6 y.st y.calls Call.getEnter
  rw [Get_eq_runCall] at h
  refine ⟨Action.callGet :: sched, ?_, ?_⟩
  · intro a ha
    rcases List.mem_cons.1 ha with h1 | h1
    · subst h1; rfl
    · exact hall a h1
  · simp only [run, exec]
    rw [hrun]
    generalize runCall 6 Call.getEnter y.st = p at h
    obtain ⟨c, s2⟩ := p
    cases c <;> simp at h
    obtain ⟨rfl, rfl⟩ := h
    rfl

/-- A `Put` that returns when run alone, releasing the handle that call `i`
returned, is a schedule of the interleaved system. -/
theorem Put_as_schedule (y : Sys) (i : Nat) (result : Composer) (s1 : State)
    (hi : y.calls[i]? = some (Call.getDone result))
    (h : Put result y.st = some (true, s1)) :
    run [Action.release i, Action.step i] y =
      some { st := s1, calls := y.calls.set i Call.putDone } := by
  have hil : i < y.calls.length := by
    by_contra hge
    rw [List.getElem?_eq_none (by omega)] at hi
    simp at hi
  by_cases hlt : y.st.cp.Pool.buf.length < y.st.cp.Pool.cap
  · simp only [Put, Chan.send, hlt, if_true, Option.some.injEq, Prod.mk.injEq, true_and] at h
    subst h
    simp [run, exec, hi, stepCall, Chan.send, hlt, List.getElem?_set_eq_of_lt, hil]
  · simp [Put, Chan.send, hlt] at h

/-- The lock protects the counter: while a call holds the exclusive lock, no
other call holds the lock in either mode, in any reachable state. -/
theorem exclusive_access (max : Int) (sched : List Action) (y : Sys)
    (hrun : reach max sched = some y) (i j : Nat) (ci cj : Call) (hij : i ≠ j)
    (hi : y.calls[i]? = some ci) (hj : y.calls[j]? = some cj) (hci : ci.holdsLock = true) :
    cj.holdsLock = false ∧ cj.holdsRLock = false := by
  have hinv := reach_inv max sched y hrun
  obtain ⟨l1, l2, h1, hlen, _⟩ := getElem?_split y.calls i ci hi
  have hlock := hinv.hlock
  have hrlock := hinv.hrlock
  have hrw := hinv.hrw
  rw [h1] at hlock hrlock hj
  have hothers := others_not_holdsLock l1 l2 ci _ (by split <;> omega) hlock hci
  have hw : y.st.cp.PoolMutex.writer = true := by
    simp only [List.countP_append, List.countP_cons, hci, if_true] at hlock
    cases hw : y.st.cp.PoolMutex.writer with
    | true => rfl
    | false => rw [hw] at hlock; simp only [Bool.false_eq_true, if_false] at hlock; omega
  have hr0 := hrw hw
  rw [hr0, List.countP_eq_zero] at hrlock
  have hmem : cj ∈ l1 ++ l2 := by
    by_cases hlt : j < l1.length
    · rw [List.getElem?_append_left hlt] at hj
      exact List.mem_append_left _ (List.getElem?_mem hj)
    · have hge : l1.length ≤ j := by omega
      rw [List.getElem?_append_right hge] at hj
      have hsucc : j - l1.length = (j - l1.length - 1) + 1 := by omega
      rw [hsucc, List.getElem?_cons_succ] at hj
      exact List.mem_append_right _ (List.getElem?_mem hj)
  refine ⟨hothers cj hmem, ?_⟩
  have hmem2 : cj ∈ l1 ++ ci :: l2 := by
    rcases List.mem_append.1 hmem with h | h
    · exact List.mem_append_left _ h
    · exact List.mem_append_right _ (List.mem_cons_of_mem _ h)
  simpa using hrlock cj hmem2

/-! ## The interleaved system: the claims -/

/-- C1 (ceiling invariant): for every capacity `max ≥ 1`, `NewComposerPool(max)`
succeeds, and in every state reached by any interleaving of the steps of any
number of `Get` and `Put` calls (contract respected or not)
`0 ≤ PoolCount ≤ PoolMax = max`, the handles ever created are pairwise distinct
and their number equals `PoolCount`, so it never exceeds `max`. -/
theorem ceiling_invariant (max : Int) (hmax : 1 ≤ max) (sched : List Action) (y : Sys)
    (hrun : reach max sched = some y) :
    (∃ y0, reach max [] = some y0) ∧
    0 ≤ y.st.cp.PoolCount ∧ y.st.cp.PoolCount ≤ y.st.cp.PoolMax ∧ y.st.cp.PoolMax = max ∧
    y.st.created.Nodup ∧ (y.st.created.length : Int) = y.st.cp.PoolCount ∧
    (y.st.created.length : Int) ≤ max := by
  have hinv := reach_inv max sched y hrun
  have _ := hmax
  refine ⟨?_, hinv.hlo, hinv.hhi, hinv.hmax, created_nodup max y hinv, hinv.hlen, ?_⟩
  · cases h0 : Sys.init max with
    | none => simp [reach, h0] at hrun
    | some y0 => exact ⟨y0, by simp [reach, h0, run]⟩
  · rw [hinv.hlen, ← hinv.hmax]; exact hinv.hhi

/-- Witness of C1: capacity 1, two overlapping `Get`s that both pass the
optimistic check; only one of them creates. -/
theorem ceiling_invariant_witness :
    reach 1 raceSchedule = some raceState ∧
    raceState.st.cp.PoolCount ≤ raceState.st.cp.PoolMax ∧
    (raceState.st.created.length : Int) = raceState.st.cp.PoolCount ∧
    (raceState.st.created.length : Int) ≤ 1 :=
  have h := ceiling_invariant 1 (by decide) raceSchedule raceState (by decide)
  ⟨by decide, h.2.2.1, h.2.2.2.2.2.1, h.2.2.2.2.2.2⟩

/-- C4 (conservation, no double issue): in every state reached from
`NewComposerPool(max)` by an interleaving in which every `Put` releases the
handle that a returned `Get` handed out, once per checkout, the `PoolCount`
created handles are pairwise distinct and are exactly the handles held by calls
together with the handles in the queue, each exactly once: created = checked
out + queued, and no two calls ever hold the same handle. -/
theorem conservation (max : Int) (sched : List Action) (y : Sys)
    (hsched : ∀ a ∈ sched, a.contractual = true) (hrun : reach max sched = some y) :
    (y.st.created.length : Int) = y.st.cp.PoolCount ∧
    y.st.created.Nodup ∧
    List.Perm y.st.created (heldBy y.calls ++ y.st.cp.Pool.buf) ∧
    (heldBy y.calls ++ y.st.cp.Pool.buf).Nodup ∧
    y.st.cp.PoolCount = ((heldBy y.calls).length : Int) + (y.st.cp.Pool.buf.length : Int) ∧
    (∀ (i j : Nat) (ci cj : Call) (r : Composer), i ≠ j → y.calls[i]? = some ci →
      y.calls[j]? = some cj → r ∈ ci.held → r ∉ cj.held) := by
  have hinv := reach_inv max sched y hrun
  have hcons : List.Perm y.st.created (heldBy y.calls ++ y.st.cp.Pool.buf) :=
    reach_conserved max sched y hsched hrun
  have hnd := created_nodup max y hinv
  have hnd2 : (heldBy y.calls ++ y.st.cp.Pool.buf).Nodup := hcons.nodup_iff.1 hnd
  refine ⟨hinv.hlen, hnd, hcons, hnd2, ?_, ?_⟩
  · have hl := hcons.length_eq
    rw [List.length_append] at hl
    rw [← hinv.hlen, hl]; push_cast; rfl
  · intro i j ci cj r hij hi hj hri
    exact held_disjoint y.calls (List.Nodup.of_append_left hnd2) i j ci cj r hij hi hj hri

/-- Witness of C4: capacity 2, two `Get`s, the first handle released and
queued, the release of the second under way. -/
theorem conservation_witness :
    reach 2 circulateSchedule = some circulateState ∧
    List.Perm circulateState.st.created
      (heldBy circulateState.calls ++ circulateState.st.cp.Pool.buf) ∧
    (heldBy circulateState.calls ++ circulateState.st.cp.Pool.buf).Nodup :=
  have h := conservation 2 circulateSchedule circulateState (by decide) (by decide)
  ⟨by decide, h.2.2.1, h.2.2.2.1⟩

/-- C9 (Put never blocks under correct usage): in every state reached from
`NewComposerPool(max)` by an interleaving in which every `Put` releases the
handle that a returned `Get` handed out, queue length ≤ `PoolCount` ≤ `PoolMax`,
the queue is shorter than `PoolMax` whenever some handle is checked out, and the
send of every pending `Put` is enabled: the `Put` completes, returning `true`
with its handle at the tail of the queue. -/
theorem Put_never_blocks (max : Int) (sched : List Action) (y : Sys)
    (hsched : ∀ a ∈ sched, a.contractual = true) (hrun : reach max sched = some y) :
    (y.st.cp.Pool.buf.length : Int) ≤ y.st.cp.PoolCount ∧
    y.st.cp.PoolCount ≤ y.st.cp.PoolMax ∧
    (heldBy y.calls ≠ [] → (y.st.cp.Pool.buf.length : Int) < y.st.cp.PoolMax) ∧
    (∀ (i : Nat) (h : Composer), y.calls[i]? = some (Call.putSend h) →
      ∃ y1, exec (Action.step i) y = some y1 ∧ y1.calls[i]? = some Call.putDone ∧
        y1.st.cp.Pool.buf = y.st.cp.Pool.buf ++ [h]) := by
  have hinv := reach_inv max sched y hrun
  have hcons : List.Perm y.st.created (heldBy y.calls ++ y.st.cp.Pool.buf) :=
    reach_conserved max sched y hsched hrun
  have hl := hcons.length_eq
  rw [List.length_append] at hl
  have hlen := hinv.hlen
  have hhi := hinv.hhi
  have hcap := hinv.hcap
  have hheld : heldBy y.calls ≠ [] → (y.st.cp.Pool.buf.length : Int) < y.st.cp.PoolMax := by
    intro hne
    have hpos : 0 < (heldBy y.calls).length := List.length_pos.2 hne
    omega
  refine ⟨by omega, hhi, hheld, ?_⟩
  intro i h hi
  have hmem : h ∈ heldBy y.calls :=
    mem_heldBy y.calls _ h (List.getElem?_mem hi) (by simp [Call.held])
  have hlt := hheld (List.ne_nil_of_mem hmem)
  have hlt2 : y.st.cp.Pool.buf.length < y.st.cp.Pool.cap := by omega
  have hstep : stepCall (Call.putSend h) y.st = some (Call.putDone,
      y.st.withPool { y.st.cp.Pool with buf := y.st.cp.Pool.buf ++ [h] }) := by
    simp [stepCall, Chan.send, hlt2]
  refine ⟨_, exec_step_eq y i _ _ _ hi hstep, ?_, rfl⟩
  have hil : i < y.calls.length := by
    by_contra hge
    rw [List.getElem?_eq_none (by omega)] at hi
    simp at hi
  simp [List.getElem?_set_eq_of_lt, hil]

/-- Witness of C9: capacity 2, one handle queued, the release of the other
under way: its send goes through. -/
theorem Put_never_blocks_witness :
    reach 2 circulateSchedule = some circulateState ∧
    ∃ y1, exec (Action.step 1) circulateState = some y1 ∧
      y1.calls[1]? = some Call.putDone ∧
      y1.st.cp.Pool.buf = circulateState.st.cp.Pool.buf ++ [{ ref := 1, Index := 1 }] :=
  ⟨by decide,
    (Put_never_blocks 2 circulateSchedule circulateState (by decide) (by decide)).2.2.2
      1 { ref := 1, Index := 1 } (by decide)⟩

/-- C10 (lock held across the dequeue): a `Get` that fails the re-check goes to
the dequeue without releasing the exclusive lock. In every reachable state in
which some `Get` waits at the dequeue holding the exclusive lock,
`PoolCount = PoolMax`, so that no continuation whatsoever creates a handle (the
held lock keeps nobody from creating); and if the queue is empty, the send of
any pending `Put` is enabled although the lock is held, after which the lock
holder dequeues exactly the handle sent, releases the lock and returns it. -/
theorem lock_held_while_waiting (max : Int) (sched : List Action) (y : Sys)
    (hrun : reach max sched = some y) (i : Nat)
    (hi : y.calls[i]? = some (Call.getRecv true)) :
    (∀ s : State, ¬ s.cp.PoolCount < s.cp.PoolMax →
      stepCall Call.getLocked s = some (Call.getRecv true, s)) ∧
    y.st.cp.PoolMutex.writer = true ∧
    y.st.cp.PoolCount = y.st.cp.PoolMax ∧
    (∀ (sched1 : List Action) (y1 : Sys), run sched1 y = some y1 →
      y1.st.created = y.st.created ∧ y1.st.cp.PoolCount = y.st.cp.PoolCount) ∧
    (∀ (j : Nat) (h : Composer), y.calls[j]? = some (Call.putSend h) →
      y.st.cp.Pool.buf = [] →
      ∃ y3, run [Action.step j, Action.step i, Action.step i] y = some y3 ∧
        y3.calls[j]? = some Call.putDone ∧ y3.calls[i]? = some (Call.getDone h) ∧
        y3.st.cp.PoolMutex.writer = false ∧ y3.st.cp.Pool.buf = []) := by
  have hinv := reach_inv max sched y hrun
  have hok : y.st.cp.PoolCount = y.st.cp.PoolMax ∧ 0 < y.st.cp.PoolMax :=
    hinv.hok _ (List.getElem?_mem hi)
  have hil : i < y.calls.length := by
    by_contra hge
    rw [List.getElem?_eq_none (by omega)] at hi
    simp at hi
  refine ⟨?_, ?_, hok.1, ?_, ?_⟩
  · intro s hge
    simp [stepCall, hge]
  · obtain ⟨l1, l2, h1, _, _⟩ := getElem?_split y.calls i _ hi
    have hlock := hinv.hlock
    rw [h1] at hlock
    simp only [List.countP_append, List.countP_cons, Call.holdsLock, if_true] at hlock
    cases hw : y.st.cp.PoolMutex.writer with
    | true => rfl
    | false => rw [hw] at hlock; simp only [Bool.false_eq_true, if_false] at hlock; omega
  · intro sched1 y1 h1
    exact run_ceiling max sched1 y y1 hinv hok.1 h1
  · intro j h hj hb
    have hij : i ≠ j := by
      intro hEq; rw [hEq, hj] at hi; simp at hi
    have hjl : j < y.calls.length := by
      by_contra hge
      rw [List.getElem?_eq_none (by omega)] at hj
      simp at hj
    have hcap : 0 < y.st.cp.Pool.cap := by
      have := hinv.hcap
      omega
    obtain ⟨st, calls⟩ := y
    obtain ⟨created, ⟨⟨cap, buf⟩, ⟨readers, writer⟩, count, pmax⟩⟩ := st
    simp only at hb hcap hi hj hil hjl
    subst hb
    have hji : j ≠ i := fun e => hij e.symm
    refine ⟨{ st := { created := created
                      cp := { Pool := { cap := cap, buf := [] }
                              PoolMutex := { readers := readers, writer := false }
                              PoolCount := count, PoolMax := pmax } }
              calls := ((calls.set j Call.putDone).set i (Call.getReturn h)).set i
                (Call.getDone h) }, ?_, ?_, ?_, rfl, rfl⟩
    · simp [run, exec, hj, hi, stepCall, Chan.send, Chan.recv, hcap, State.withPool,
        State.withMutex, RWMutex.Unlock, List.getElem?_set_ne hji,
        List.getElem?_set_eq_of_lt, hil]
    · simp [List.getElem?_set_ne hij, List.getElem?_set_eq_of_lt, hjl]
    · simp [List.getElem?_set_eq_of_lt, hil]

/-- Witness of C10: in `raceState` call 1 waits with the lock held; once the
caller of call 0 has invoked `Put`, call 1 receives that very handle. -/
theorem lock_held_while_waiting_witness :
    reach 1 (raceSchedule ++ [Action.release 0]) = some raceReleaseState ∧
    raceReleaseState.st.cp.PoolMutex.writer = true ∧
    raceReleaseState.st.cp.PoolCount = raceReleaseState.st.cp.PoolMax ∧
    ∃ y3, run [Action.step 0, Action.step 1, Action.step 1] raceReleaseState = some y3 ∧
      y3.calls[0]? = some Call.putDone ∧
      y3.calls[1]? = some (Call.getDone { ref := 0, Index := 0 }) ∧
      y3.st.cp.PoolMutex.writer = false ∧ y3.st.cp.Pool.buf = [] :=
  have h := lock_held_while_waiting 1 (raceSchedule ++ [Action.release 0]) raceReleaseState
    (by decide) 1 (by decide)
  ⟨by decide, h.2.1, h.2.2.1, h.2.2.2.2 0 { ref := 0, Index := 0 } (by decide) (by decide)⟩

end ComposerRuntime
